import Mathlib

/-!
# LSB steganography codec: shallow embedding and verification

This file embeds the encode/decode codec of `src/stegnography.py`
(`encode_text_in_image` and `decode_text_from_image`) into Lean and proves
the specified properties of the codec.

Modelling conventions:
* A pixel buffer (the flattened `numpy` `uint8` array `flat_image`) is a
  `List Nat`; the `uint8` invariant "every element is in [0,255]" appears as
  an explicit hypothesis `∀ p ∈ P, p < 256` where a property needs it.
* A Python string is a `List Nat` of character code points (`ord` values).
* `format(ord(c), '08b')` is `format08`: the binary digits of the code
  point, most significant bit first, left-padded with zeros to width 8
  (and wider than 8 digits when the code point exceeds 255, exactly as in
  Python).
* Recursions that consume a list eight elements at a time are written with
  an explicit fuel argument (initialised to the list length, which bounds
  the number of steps) so that they are structural and evaluate by `decide`;
  unfolding lemmas recover the natural recursion equations.
* File I/O and the `try/except` wrappers are outside the codec; the encoder
  is modelled as returning `Except EncodeError`, mirroring the
  `raise ValueError("Secret too long for image capacity!")` branch.
-/

namespace Steg

set_option maxRecDepth 8000

/-- The encoder's only failure mode: the secret (plus terminator) needs more
bits than the flattened image has elements. -/
inductive EncodeError where
  | payloadTooLarge
deriving DecidableEq

instance : DecidableEq (Except EncodeError (List Nat)) := fun a b =>
  match a, b with
  | .ok x, .ok y => decidable_of_iff (x = y) (by simp)
  | .error x, .error y => decidable_of_iff (x = y) (by simp)
  | .ok _, .error _ => isFalse (by simp)
  | .error _, .ok _ => isFalse (by simp)

/-- Binary digits of `n`, most significant first, with fuel (`natBitsAux n n`
gives the digits of `n`, since the digit count of `n` is at most `n`).
Mirrors Python's `format(n, 'b')`, except that Python renders `0` as `"0"`;
the discrepancy is absorbed by the zero-padding in `format08`. -/
def natBitsAux : Nat → Nat → List Nat
  | 0, _ => []
  | _ + 1, 0 => []
  | fuel + 1, n + 1 => natBitsAux fuel ((n + 1) / 2) ++ [(n + 1) % 2]

def natBits (n : Nat) : List Nat := natBitsAux n n

/-- Python's `format(n, '08b')` as a list of 0/1 values: binary digits of
`n`, MSB first, left-padded with `0` to width 8. -/
def format08 (n : Nat) : List Nat :=
  List.replicate (8 - (natBits n).length) 0 ++ natBits n

/-- `binary_secret` of `encode_text_in_image`: the concatenated 8-bit
renderings of the secret's characters, followed by the 8-zero terminator
(`'00000000'`). -/
def binary_secret (S : List Nat) : List Nat :=
  (S.map format08).flatten ++ List.replicate 8 0

/-- One step of the embedding loop: `(flat_image[i] & 0xFE) | int(bit)`. -/
def embedByte (p b : Nat) : Nat := (p &&& 0xFE) ||| b

/-- The embedding loop: replace the LSB of the i-th element by the i-th bit,
for every bit of the payload; elements beyond the payload are untouched. -/
def embedBits : List Nat → List Nat → List Nat
  | ps, [] => ps
  | [], _ :: _ => []
  | p :: ps, b :: bs => embedByte p b :: embedBits ps bs

/-- The codec core of `encode_text_in_image`, acting on the flattened pixel
buffer: build `binary_secret`, reject the payload when it has more bits than
the buffer has elements, otherwise embed it into the LSBs. -/
def encode_text_in_image (P S : List Nat) : Except EncodeError (List Nat) :=
  if (binary_secret S).length > P.length then .error .payloadTooLarge
  else .ok (embedBits P (binary_secret S))

/-- `binary_data` of the decoder: the LSB (`pixel & 1`) of each element. -/
def lsbStream (P : List Nat) : List Nat := P.map (fun p => p &&& 1)

/-- Python's `int(byte, 2)`: the value of a list of 0/1 digits, MSB first. -/
def bitsToNat (bs : List Nat) : Nat := bs.foldl (fun a b => 2 * a + b) 0

/-- The decoder loop `for i in range(0, len(binary_data), 8)` with fuel
(initialised to the bit-list length, which bounds the iteration count):
take the next slice of up to 8 bits, stop on the exact terminator
`'00000000'`, otherwise append `chr(int(byte, 2))` and continue. A final
slice shorter than 8 bits is still converted to a character, exactly as in
the source. -/
def decodeBitsAux : Nat → List Nat → List Nat
  | 0, _ => []
  | _ + 1, [] => []
  | fuel + 1, b :: bs =>
    if (b :: bs).take 8 = List.replicate 8 0 then []
    else bitsToNat ((b :: bs).take 8) :: decodeBitsAux fuel ((b :: bs).drop 8)

def decodeBits (bs : List Nat) : List Nat := decodeBitsAux bs.length bs

/-- The codec core of `decode_text_from_image`, acting on the flattened
pixel buffer: extract the LSB stream and decode it in 8-bit groups, as a
list of character code points. -/
def decode_text_from_image (P : List Nat) : List Nat :=
  decodeBits (lsbStream P)

/-- `requiredBits` of the specification: `8 * (byteLength(secret) + 1)`. -/
def requiredBits (S : List Nat) : Nat := 8 * (S.length + 1)

/-- The complete (length exactly 8) consecutive groups of a bit list, in
order, as the specification describes them; a trailing group of fewer than
8 bits is not included. Stated from the spec to compare against the
decoder's behaviour. -/
def chunks8Aux : Nat → List Nat → List (List Nat)
  | 0, _ => []
  | fuel + 1, bs =>
    if 8 ≤ bs.length then bs.take 8 :: chunks8Aux fuel (bs.drop 8) else []

def chunks8 (bs : List Nat) : List (List Nat) := chunks8Aux bs.length bs

/-- All consecutive groups of a bit list, in order, including a final
group of fewer than 8 bits when the length is not a multiple of 8. -/
def allChunksAux : Nat → List Nat → List (List Nat)
  | 0, _ => []
  | _ + 1, [] => []
  | fuel + 1, b :: bs => (b :: bs).take 8 :: allChunksAux fuel ((b :: bs).drop 8)

def allChunks (bs : List Nat) : List (List Nat) := allChunksAux bs.length bs

/-! ## Fuel elimination: natural unfolding equations -/

theorem decodeBitsAux_congr :
    ∀ f g bs, bs.length ≤ f → bs.length ≤ g →
      decodeBitsAux f bs = decodeBitsAux g bs := by
  intro f
  induction f with
  | zero =>
    intro g bs hf _
    have : bs = [] := List.eq_nil_of_length_eq_zero (Nat.le_zero.mp hf)
    subst this
    cases g <;> rfl
  | succ f ih =>
    intro g bs hf hg
    cases bs with
    | nil => cases g <;> rfl
    | cons b rest =>
      cases g with
      | zero => simp at hg
      | succ g =>
        simp only [decodeBitsAux]
        split
        · rfl
        · have hlen : ((b :: rest).drop 8).length ≤ f := by
            simp only [List.length_drop, List.length_cons] at *
            omega
          have hlen' : ((b :: rest).drop 8).length ≤ g := by
            simp only [List.length_drop, List.length_cons] at *
            omega
          rw [ih g ((b :: rest).drop 8) hlen hlen']

theorem decodeBits_nil : decodeBits [] = [] := rfl

theorem decodeBits_cons (b : Nat) (bs : List Nat) :
    decodeBits (b :: bs) =
      if (b :: bs).take 8 = List.replicate 8 0 then []
      else bitsToNat ((b :: bs).take 8) :: decodeBits ((b :: bs).drop 8) := by
  show decodeBitsAux (b :: bs).length (b :: bs) = _
  simp only [List.length_cons, decodeBitsAux]
  split
  · rfl
  · rw [decodeBitsAux_congr bs.length ((b :: bs).drop 8).length ((b :: bs).drop 8)
      (by simp [List.length_drop]) (le_refl _)]
    rfl

theorem chunks8Aux_congr :
    ∀ f g bs, bs.length ≤ f → bs.length ≤ g →
      chunks8Aux f bs = chunks8Aux g bs := by
  intro f
  induction f with
  | zero =>
    intro g bs hf _
    have : bs = [] := List.eq_nil_of_length_eq_zero (Nat.le_zero.mp hf)
    subst this
    cases g with
    | zero => rfl
    | succ g => simp [chunks8Aux]
  | succ f ih =>
    intro g bs hf hg
    cases g with
    | zero =>
      have : bs = [] := List.eq_nil_of_length_eq_zero (Nat.le_zero.mp hg)
      subst this
      simp [chunks8Aux]
    | succ g =>
      simp only [chunks8Aux]
      split
      · have hlen : (bs.drop 8).length ≤ f := by
          simp only [List.length_drop]
          omega
        have hlen' : (bs.drop 8).length ≤ g := by
          simp only [List.length_drop]
          omega
        rw [ih g (bs.drop 8) hlen hlen']
      · rfl

theorem chunks8_eq (bs : List Nat) :
    chunks8 bs =
      if 8 ≤ bs.length then bs.take 8 :: chunks8 (bs.drop 8) else [] := by
  show chunks8Aux bs.length bs = _
  split
  case isTrue h8 =>
    obtain ⟨n, hn⟩ : ∃ n, bs.length = n + 1 := ⟨bs.length - 1, by omega⟩
    rw [hn]
    simp only [chunks8Aux, if_pos h8]
    rw [chunks8Aux_congr n (bs.drop 8).length (bs.drop 8)
      (by simp only [List.length_drop]; omega) (le_refl _)]
    rfl
  case isFalse h8 =>
    cases h : bs.length with
    | zero =>
      have : bs = [] := List.eq_nil_of_length_eq_zero h
      subst this
      rfl
    | succ n =>
      simp only [chunks8Aux, if_neg h8]

theorem allChunksAux_congr :
    ∀ f g bs, bs.length ≤ f → bs.length ≤ g →
      allChunksAux f bs = allChunksAux g bs := by
  intro f
  induction f with
  | zero =>
    intro g bs hf _
    have : bs = [] := List.eq_nil_of_length_eq_zero (Nat.le_zero.mp hf)
    subst this
    cases g <;> rfl
  | succ f ih =>
    intro g bs hf hg
    cases bs with
    | nil => cases g <;> rfl
    | cons b rest =>
      cases g with
      | zero => simp at hg
      | succ g =>
        simp only [allChunksAux]
        have hlen : ((b :: rest).drop 8).length ≤ f := by
          simp only [List.length_drop, List.length_cons] at *
          omega
        have hlen' : ((b :: rest).drop 8).length ≤ g := by
          simp only [List.length_drop, List.length_cons] at *
          omega
        rw [ih g ((b :: rest).drop 8) hlen hlen']

theorem allChunks_nil : allChunks [] = [] := rfl

theorem allChunks_cons (b : Nat) (bs : List Nat) :
    allChunks (b :: bs) = (b :: bs).take 8 :: allChunks ((b :: bs).drop 8) := by
  show allChunksAux (b :: bs).length (b :: bs) = _
  simp only [List.length_cons, allChunksAux]
  rw [allChunksAux_congr bs.length ((b :: bs).drop 8).length ((b :: bs).drop 8)
    (by simp [List.length_drop]) (le_refl _)]
  rfl

/-! ## Facts about `format08` on byte-sized code points, by exhaustive check -/

set_option maxHeartbeats 1000000 in
theorem format08_spec : ∀ c : Fin 256,
    (format08 c.val).length = 8 ∧ bitsToNat (format08 c.val) = c.val ∧
    (format08 c.val = List.replicate 8 0 ↔ c.val = 0) ∧
    (∀ b ∈ format08 c.val, b < 2) := by decide

theorem format08_length {c : Nat} (hc : c < 256) : (format08 c).length = 8 :=
  (format08_spec ⟨c, hc⟩).1

theorem bitsToNat_format08 {c : Nat} (hc : c < 256) : bitsToNat (format08 c) = c :=
  (format08_spec ⟨c, hc⟩).2.1

theorem format08_eq_zeros_iff {c : Nat} (hc : c < 256) :
    format08 c = List.replicate 8 0 ↔ c = 0 :=
  (format08_spec ⟨c, hc⟩).2.2.1

theorem format08_bits_lt {c : Nat} (hc : c < 256) : ∀ b ∈ format08 c, b < 2 :=
  (format08_spec ⟨c, hc⟩).2.2.2

/-! ## Facts about `embedByte` -/

theorem embedByte_eq_of_lt : ∀ p : Fin 256, ∀ b : Fin 2,
    embedByte p.val b.val = 2 * (p.val / 2) + b.val := by decide

theorem embedByte_eq {p b : Nat} (hp : p < 256) (hb : b < 2) :
    embedByte p b = 2 * (p / 2) + b :=
  embedByte_eq_of_lt ⟨p, hp⟩ ⟨b, hb⟩

theorem embedByte_lsb {p b : Nat} (hp : p < 256) (hb : b < 2) :
    embedByte p b &&& 1 = b := by
  rw [embedByte_eq hp hb, Nat.and_one_is_mod]
  omega

theorem embedByte_div_two {p b : Nat} (hp : p < 256) (hb : b < 2) :
    embedByte p b / 2 = p / 2 := by
  rw [embedByte_eq hp hb]
  omega

/-! ## Facts about `binary_secret` -/

theorem binary_secret_length {S : List Nat} (hS : ∀ c ∈ S, c < 256) :
    (binary_secret S).length = 8 * (S.length + 1) := by
  induction S with
  | nil => rfl
  | cons c S ih =>
    have hc : c < 256 := hS c (by simp)
    have hS' : ∀ x ∈ S, x < 256 := fun x hx => hS x (by simp [hx])
    have ih' := ih hS'
    simp only [binary_secret, List.length_append, List.length_replicate] at ih'
    simp only [binary_secret, List.map_cons, List.flatten_cons, List.length_append,
      List.length_replicate, List.length_cons]
    rw [format08_length hc]
    omega

theorem binary_secret_bits_lt {S : List Nat} (hS : ∀ c ∈ S, c < 256) :
    ∀ b ∈ binary_secret S, b < 2 := by
  intro b hb
  simp only [binary_secret, List.mem_append, List.mem_flatten, List.mem_map] at hb
  rcases hb with ⟨l, ⟨c, hc, rfl⟩, hbl⟩ | hb
  · exact format08_bits_lt (hS c hc) b hbl
  · have := List.eq_of_mem_replicate hb
    omega

theorem binary_secret_nil : binary_secret [] = List.replicate 8 0 := rfl

theorem binary_secret_cons (c : Nat) (S : List Nat) :
    binary_secret (c :: S) = format08 c ++ binary_secret S := by
  simp [binary_secret, List.append_assoc]

/-! ## Facts about `embedBits` -/

theorem embedBits_nil_right : ∀ ps : List Nat, embedBits ps [] = ps
  | [] => rfl
  | _ :: _ => rfl

theorem embedBits_length : ∀ ps bs : List Nat, (embedBits ps bs).length = ps.length
  | ps, [] => by rw [embedBits_nil_right]
  | [], _ :: _ => rfl
  | p :: ps, b :: bs => by
    simp only [embedBits, List.length_cons]
    rw [embedBits_length ps bs]

theorem embedBits_drop : ∀ ps bs : List Nat,
    (embedBits ps bs).drop bs.length = ps.drop bs.length
  | ps, [] => by rw [embedBits_nil_right]
  | [], _ :: _ => by simp [embedBits]
  | p :: ps, b :: bs => by
    simp only [embedBits, List.length_cons, List.drop_succ_cons]
    exact embedBits_drop ps bs

theorem embedBits_getD_div_two : ∀ ps bs : List Nat,
    (∀ p ∈ ps, p < 256) → (∀ b ∈ bs, b < 2) →
    ∀ i, (embedBits ps bs).getD i 0 / 2 = ps.getD i 0 / 2
  | ps, [], _, _, _ => by rw [embedBits_nil_right]
  | [], _ :: _, _, _, _ => rfl
  | p :: ps, b :: bs, hp, hb, i => by
    cases i with
    | zero =>
      simp only [embedBits, List.getD_cons_zero]
      exact embedByte_div_two (hp p (by simp)) (hb b (by simp))
    | succ i =>
      simp only [embedBits, List.getD_cons_succ]
      exact embedBits_getD_div_two ps bs (fun x hx => hp x (by simp [hx]))
        (fun x hx => hb x (by simp [hx])) i

theorem embedBits_getD_eq : ∀ ps bs : List Nat,
    (∀ p ∈ ps, p < 256) → (∀ b ∈ bs, b < 2) →
    ∀ i, i < bs.length → i < ps.length →
    (embedBits ps bs).getD i 0 = embedByte (ps.getD i 0) (bs.getD i 0)
  | _, [], _, _, _, h, _ => by simp at h
  | [], _ :: _, _, _, _, _, h => by simp at h
  | p :: ps, b :: bs, hp, hb, i, hib, hip => by
    cases i with
    | zero => rfl
    | succ i =>
      simp only [embedBits, List.getD_cons_succ]
      exact embedBits_getD_eq ps bs (fun x hx => hp x (by simp [hx]))
        (fun x hx => hb x (by simp [hx])) i (by simpa using hib) (by simpa using hip)

theorem lsbStream_embedBits : ∀ ps bs : List Nat,
    (∀ p ∈ ps, p < 256) → (∀ b ∈ bs, b < 2) → bs.length ≤ ps.length →
    lsbStream (embedBits ps bs) = bs ++ lsbStream (ps.drop bs.length)
  | ps, [], _, _, _ => by rw [embedBits_nil_right]; simp
  | [], b :: bs, _, _, h => by simp at h
  | p :: ps, b :: bs, hp, hb, h => by
    simp only [embedBits, lsbStream, List.map_cons, List.length_cons,
      List.drop_succ_cons, List.cons_append]
    rw [embedByte_lsb (hp p (by simp)) (hb b (by simp))]
    have := lsbStream_embedBits ps bs (fun x hx => hp x (by simp [hx]))
      (fun x hx => hb x (by simp [hx])) (by simpa using h)
    simp only [lsbStream] at this
    rw [this]

/-! ## Bounds on decoded character codes -/

theorem foldl_two_mul_add_lt : ∀ (bs : List Nat) (acc : Nat),
    (∀ b ∈ bs, b < 2) →
    bs.foldl (fun a b => 2 * a + b) acc < (acc + 1) * 2 ^ bs.length
  | [], acc, _ => by simp
  | b :: bs, acc, h => by
    simp only [List.foldl_cons, List.length_cons]
    have hb : b < 2 := h b (by simp)
    have h1 := foldl_two_mul_add_lt bs (2 * acc + b) (fun x hx => h x (by simp [hx]))
    have h2 : (2 * acc + b + 1) * 2 ^ bs.length ≤ (acc + 1) * 2 ^ (bs.length + 1) := by
      rw [pow_succ]
      have : 2 * acc + b + 1 ≤ (acc + 1) * 2 := by omega
      calc (2 * acc + b + 1) * 2 ^ bs.length
          ≤ (acc + 1) * 2 * 2 ^ bs.length := Nat.mul_le_mul_right _ this
        _ = (acc + 1) * (2 ^ bs.length * 2) := by ring
    exact lt_of_lt_of_le h1 h2

theorem bitsToNat_lt {bs : List Nat} (h : ∀ b ∈ bs, b < 2) (hlen : bs.length ≤ 8) :
    bitsToNat bs < 256 := by
  have h1 := foldl_two_mul_add_lt bs 0 h
  have h2 : 2 ^ bs.length ≤ 2 ^ 8 := Nat.pow_le_pow_right (by omega) hlen
  simp only [bitsToNat]
  calc bs.foldl (fun a b => 2 * a + b) 0 < (0 + 1) * 2 ^ bs.length := h1
    _ = 2 ^ bs.length := by ring
    _ ≤ 256 := h2

theorem lsb_lt_two (p : Nat) : p &&& 1 < 2 := by
  rw [Nat.and_one_is_mod]
  omega

theorem lsbStream_bits_lt (P : List Nat) : ∀ b ∈ lsbStream P, b < 2 := by
  intro b hb
  simp only [lsbStream, List.mem_map] at hb
  obtain ⟨p, _, rfl⟩ := hb
  exact lsb_lt_two p

theorem decodeBitsAux_lt : ∀ (f : Nat) (bs : List Nat), (∀ b ∈ bs, b < 2) →
    ∀ c ∈ decodeBitsAux f bs, c < 256
  | 0, _, _, c, hc => by simp [decodeBitsAux] at hc
  | _ + 1, [], _, c, hc => by simp [decodeBitsAux] at hc
  | f + 1, b :: bs, h, c, hc => by
    simp only [decodeBitsAux] at hc
    split at hc
    · simp at hc
    · simp only [List.mem_cons] at hc
      rcases hc with rfl | hc
      · exact bitsToNat_lt (fun x hx => h x (List.take_subset _ _ hx))
          (by simp only [List.length_take]; omega)
      · exact decodeBitsAux_lt f _ (fun x hx => h x (List.drop_subset _ _ hx)) c hc

theorem decodeBits_lt {bs : List Nat} (h : ∀ b ∈ bs, b < 2) :
    ∀ c ∈ decodeBits bs, c < 256 :=
  decodeBitsAux_lt bs.length bs h

/-! ## Decoding a well-formed payload stream -/

theorem take_eight_replicate_append (rest : List Nat) :
    (List.replicate 8 0 ++ rest).take 8 = List.replicate 8 0 :=
  List.take_left' (by simp)

theorem decodeBits_append_zero (rest : List Nat) :
    decodeBits (List.replicate 8 0 ++ rest) = [] := by
  rw [show List.replicate 8 (0 : Nat) ++ rest = 0 :: (List.replicate 7 0 ++ rest) from rfl,
    decodeBits_cons]
  rw [show (0 : Nat) :: (List.replicate 7 0 ++ rest) = List.replicate 8 0 ++ rest from rfl,
    take_eight_replicate_append]
  simp

theorem decodeBits_append_block {blk : List Nat} (rest : List Nat)
    (hlen : blk.length = 8) :
    decodeBits (blk ++ rest) =
      if blk = List.replicate 8 0 then [] else bitsToNat blk :: decodeBits rest := by
  cases blk with
  | nil => simp at hlen
  | cons b bs =>
    rw [List.cons_append, decodeBits_cons]
    rw [← List.cons_append, List.take_left' hlen, List.drop_left' hlen]

theorem decodeBits_payload : ∀ (S rest : List Nat), (∀ c ∈ S, c < 256) →
    decodeBits ((S.map format08).flatten ++ (List.replicate 8 0 ++ rest)) =
      S.takeWhile (fun c => c ≠ 0)
  | [], rest, _ => by
    simp only [List.map_nil, List.flatten_nil, List.nil_append, List.takeWhile_nil]
    exact decodeBits_append_zero rest
  | c :: S, rest, hS => by
    have hc : c < 256 := hS c (by simp)
    have hS' : ∀ x ∈ S, x < 256 := fun x hx => hS x (by simp [hx])
    simp only [List.map_cons, List.flatten_cons, List.append_assoc]
    rw [decodeBits_append_block _ (format08_length hc)]
    rw [List.takeWhile_cons]
    by_cases h0 : c = 0
    · subst h0
      rw [if_pos ((format08_eq_zeros_iff hc).mpr rfl)]
      simp
    · rw [if_neg (fun h => h0 ((format08_eq_zeros_iff hc).mp h))]
      rw [bitsToNat_format08 hc, decodeBits_payload S rest hS']
      simp [h0]

/-! ## The encoder on in-capacity and over-capacity inputs -/

theorem encode_ok {P S : List Nat} (hS : ∀ c ∈ S, c < 256)
    (hcap : 8 * (S.length + 1) ≤ P.length) :
    encode_text_in_image P S = .ok (embedBits P (binary_secret S)) := by
  unfold encode_text_in_image
  rw [if_neg]
  rw [binary_secret_length hS]
  omega

theorem encode_err {P S : List Nat} (hS : ∀ c ∈ S, c < 256)
    (h : P.length < 8 * (S.length + 1)) :
    encode_text_in_image P S = .error .payloadTooLarge := by
  unfold encode_text_in_image
  rw [if_pos]
  rw [binary_secret_length hS]
  omega

theorem roundtrip_core {P S : List Nat} (hP : ∀ p ∈ P, p < 256)
    (hS : ∀ c ∈ S, c < 256) (hcap : 8 * (S.length + 1) ≤ P.length) :
    decode_text_from_image (embedBits P (binary_secret S)) =
      S.takeWhile (fun c => c ≠ 0) := by
  unfold decode_text_from_image
  rw [lsbStream_embedBits P (binary_secret S) hP (binary_secret_bits_lt hS)
    (by rw [binary_secret_length hS]; exact hcap)]
  rw [binary_secret, List.append_assoc]
  exact decodeBits_payload S _ hS

theorem takeWhile_ne_zero_of_pos : ∀ S : List Nat, (∀ c ∈ S, 0 < c) →
    S.takeWhile (fun c => c ≠ 0) = S
  | [], _ => rfl
  | c :: S, h => by
    have hc : c ≠ 0 := by
      have := h c (by simp)
      omega
    rw [List.takeWhile_cons, if_pos (by simp [hc]),
      takeWhile_ne_zero_of_pos S (fun x hx => h x (by simp [hx]))]

theorem takeWhile_ne_self_of_mem_zero {S : List Nat} (h : 0 ∈ S) :
    S.takeWhile (fun c => c ≠ 0) ≠ S := by
  intro heq
  have h0 : 0 ∈ S.takeWhile (fun c => c ≠ 0) := by
    rw [heq]
    exact h
  have := List.mem_takeWhile_imp h0
  simp at this

/-! ## The decoder against the specification's 8-bit grouping -/

theorem decodeBits_eq (bs : List Nat) (h : bs ≠ []) :
    decodeBits bs =
      if bs.take 8 = List.replicate 8 0 then []
      else bitsToNat (bs.take 8) :: decodeBits (bs.drop 8) := by
  cases bs with
  | nil => simp at h
  | cons b t => exact decodeBits_cons b t

theorem allChunks_eq (bs : List Nat) (h : bs ≠ []) :
    allChunks bs = bs.take 8 :: allChunks (bs.drop 8) := by
  cases bs with
  | nil => simp at h
  | cons b t => exact allChunks_cons b t

theorem decodeBits_chunks_of_mem_aux : ∀ (n : Nat) (bs : List Nat), bs.length ≤ n →
    List.replicate 8 0 ∈ chunks8 bs →
    decodeBits bs =
      ((chunks8 bs).takeWhile (fun c => c ≠ List.replicate 8 0)).map bitsToNat := by
  intro n
  induction n with
  | zero =>
    intro bs hn hmem
    have : bs = [] := List.eq_nil_of_length_eq_zero (Nat.le_zero.mp hn)
    subst this
    exact absurd hmem (by rw [show chunks8 [] = [] from rfl]; simp)
  | succ n ih =>
    intro bs hn hmem
    by_cases h8 : 8 ≤ bs.length
    · have hne : bs ≠ [] := by
        intro h
        subst h
        simp at h8
      rw [chunks8_eq, if_pos h8] at hmem ⊢
      rw [decodeBits_eq bs hne]
      by_cases hz : bs.take 8 = List.replicate 8 0
      · rw [if_pos hz, List.takeWhile_cons, if_neg (by simp [hz])]
        rfl
      · rw [if_neg hz, List.takeWhile_cons, if_pos (by simpa using hz), List.map_cons]
        have hmem' : List.replicate 8 0 ∈ chunks8 (bs.drop 8) := by
          rcases List.mem_cons.mp hmem with h | h
          · exact absurd h.symm hz
          · exact h
        rw [ih (bs.drop 8) (by simp only [List.length_drop]; omega) hmem']
    · rw [chunks8_eq, if_neg h8] at hmem
      simp at hmem

theorem decodeBits_chunks_of_mem {bs : List Nat}
    (hmem : List.replicate 8 0 ∈ chunks8 bs) :
    decodeBits bs =
      ((chunks8 bs).takeWhile (fun c => c ≠ List.replicate 8 0)).map bitsToNat :=
  decodeBits_chunks_of_mem_aux bs.length bs (le_refl _) hmem

theorem decodeBits_no_zero_aux : ∀ (n : Nat) (bs : List Nat), bs.length ≤ n →
    List.replicate 8 0 ∉ chunks8 bs →
    decodeBits bs = (allChunks bs).map bitsToNat := by
  intro n
  induction n with
  | zero =>
    intro bs hn _
    have : bs = [] := List.eq_nil_of_length_eq_zero (Nat.le_zero.mp hn)
    subst this
    rfl
  | succ n ih =>
    intro bs hn hmem
    cases bs with
    | nil => rfl
    | cons b t =>
      have hne : b :: t ≠ [] := by simp
      rw [decodeBits_eq _ hne, allChunks_eq _ hne, List.map_cons]
      by_cases h8 : 8 ≤ (b :: t).length
      · rw [chunks8_eq, if_pos h8] at hmem
        have hz : (b :: t).take 8 ≠ List.replicate 8 0 := fun h => hmem (h ▸ List.mem_cons_self _ _)
        have hmem' : List.replicate 8 0 ∉ chunks8 ((b :: t).drop 8) := fun h =>
          hmem (List.mem_cons_of_mem _ h)
        rw [if_neg hz, ih _ (by simp only [List.length_drop]; omega) hmem']
      · have hlt : (b :: t).length < 8 := by omega
        have htake : (b :: t).take 8 = b :: t := List.take_of_length_le (by omega)
        have hdrop : (b :: t).drop 8 = [] := List.drop_of_length_le (by omega)
        have hz : (b :: t).take 8 ≠ List.replicate 8 0 := by
          rw [htake]
          intro h
          have hlen8 : (b :: t).length = 8 := by
            rw [h]
            simp
          omega
        rw [if_neg hz, htake, hdrop]
        rfl

theorem decodeBits_no_zero {bs : List Nat}
    (hmem : List.replicate 8 0 ∉ chunks8 bs) :
    decodeBits bs = (allChunks bs).map bitsToNat :=
  decodeBits_no_zero_aux bs.length bs (le_refl _) hmem

theorem getD_replicate_zero : ∀ n i : Nat, (List.replicate n (0 : Nat)).getD i 0 = 0
  | 0, _ => rfl
  | _ + 1, 0 => rfl
  | n + 1, i + 1 => by
    simp only [List.replicate_succ, List.getD_cons_succ]
    exact getD_replicate_zero n i

theorem getD_mem {P : List Nat} {i : Nat} (hi : i < P.length) : P.getD i 0 ∈ P := by
  rw [List.getD_eq_getElem P 0 hi]
  exact List.getElem_mem hi

/-! # The claims -/

/-- C1, as stated, is false: the secret `"\x00"` (one NUL character) fits in a
16-element buffer (`requiredBits = 16 ≤ 16`, `length ≥ 8`), but decoding the
encoded buffer yields the empty string, not the secret: the embedded NUL byte
is read back as the terminator. -/
theorem C1_counterexample :
    8 ≤ (List.replicate 16 1 : List Nat).length ∧
    8 * (([0] : List Nat).length + 1) ≤ (List.replicate 16 1 : List Nat).length ∧
    Except.map decode_text_from_image
      (encode_text_in_image (List.replicate 16 1) [0]) = .ok ([] : List Nat) ∧
    ([] : List Nat) ≠ [0] := by decide

/-- C1 (amended): round-trip holds for every pixel buffer `P` of length ≥ 8
(elements in `[0,255]`) and every secret `S` whose code points all lie in
`[1,255]` — no NUL characters — with `requiredBits S = 8*(len(S)+1) ≤ length P`:
decoding the buffer produced by encoding `S` into `P` yields exactly `S`. -/
theorem C1_roundtrip (P S : List Nat) (hP : ∀ p ∈ P, p < 256)
    (hS : ∀ c ∈ S, 0 < c ∧ c < 256) (_hlen : 8 ≤ P.length)
    (hcap : 8 * (S.length + 1) ≤ P.length) :
    ∃ Q, encode_text_in_image P S = .ok Q ∧ decode_text_from_image Q = S := by
  have hS' : ∀ c ∈ S, c < 256 := fun c hc => (hS c hc).2
  refine ⟨embedBits P (binary_secret S), encode_ok hS' hcap, ?_⟩
  rw [roundtrip_core hP hS' hcap]
  exact takeWhile_ne_zero_of_pos S (fun c hc => (hS c hc).1)

/-- Witness for C1 (amended): the secret `"H"` round-trips through a
16-element buffer of 7s. -/
theorem C1_roundtrip_witness :
    ∃ Q, encode_text_in_image (List.replicate 16 7) [72] = .ok Q ∧
      decode_text_from_image Q = [72] :=
  C1_roundtrip (List.replicate 16 7) [72] (by decide) (by decide) (by decide)
    (by decide)

/-- C2: for every pixel buffer `P` and secret `S` (code points in `[0,255]`),
the encoder fails with `PayloadTooLarge` iff `8*(len(S)+1) > length P`; the
failure produces no output buffer (the capacity check precedes the embedding
loop), and on success the whole payload — every bit of `binary_secret`,
terminator included — is present in the LSBs of the output, so nothing is
silently truncated. -/
theorem C2_capacity (P S : List Nat) (hP : ∀ p ∈ P, p < 256)
    (hS : ∀ c ∈ S, c < 256) :
    (encode_text_in_image P S = .error .payloadTooLarge ↔
      P.length < 8 * (S.length + 1)) ∧
    ∀ Q, encode_text_in_image P S = .ok Q →
      (lsbStream Q).take (8 * (S.length + 1)) = binary_secret S := by
  constructor
  · constructor
    · intro h
      by_contra hc
      rw [encode_ok hS (by omega)] at h
      exact absurd h (by simp)
    · exact encode_err hS
  · intro Q hQ
    by_cases hcap : 8 * (S.length + 1) ≤ P.length
    · rw [encode_ok hS hcap] at hQ
      injection hQ with h
      subst h
      rw [lsbStream_embedBits P _ hP (binary_secret_bits_lt hS)
        (by rw [binary_secret_length hS]; exact hcap)]
      rw [← binary_secret_length hS]
      exact List.take_left' rfl
    · rw [encode_err hS (by omega)] at hQ
      exact absurd hQ (by simp)

/-- Witness for C2 at a concrete in-capacity input. -/
theorem C2_capacity_witness :
    (encode_text_in_image (List.replicate 16 3) [65] = .error .payloadTooLarge ↔
      (List.replicate 16 3 : List Nat).length < 8 * (([65] : List Nat).length + 1)) ∧
    ∀ Q, encode_text_in_image (List.replicate 16 3) [65] = .ok Q →
      (lsbStream Q).take (8 * (([65] : List Nat).length + 1)) = binary_secret [65] :=
  C2_capacity (List.replicate 16 3) [65] (by decide) (by decide)

/-- C3: on success the encoder returns a new buffer of the same length as `P`
that agrees with `P` at every index `≥ requiredBits S` and differs from `P`
at most in the least significant bit everywhere (the quotient by 2 of every
element is unchanged). The encoder is a pure function of its input, so the
caller's buffer is untouched. -/
theorem C3_minimal_disturbance (P S Q : List Nat) (hP : ∀ p ∈ P, p < 256)
    (hS : ∀ c ∈ S, c < 256) (hQ : encode_text_in_image P S = .ok Q) :
    Q.length = P.length ∧
    Q.drop (8 * (S.length + 1)) = P.drop (8 * (S.length + 1)) ∧
    ∀ i, Q.getD i 0 / 2 = P.getD i 0 / 2 := by
  by_cases hcap : 8 * (S.length + 1) ≤ P.length
  · rw [encode_ok hS hcap] at hQ
    injection hQ with h
    subst h
    refine ⟨embedBits_length _ _, ?_, ?_⟩
    · rw [← binary_secret_length hS]
      exact embedBits_drop P _
    · exact embedBits_getD_div_two P _ hP (binary_secret_bits_lt hS)
  · rw [encode_err hS (by omega)] at hQ
    exact absurd hQ (by simp)

/-- Witness for C3: encoding `"\x01"` into sixteen 10s. -/
theorem C3_minimal_disturbance_witness :
    (([10, 10, 10, 10, 10, 10, 10, 11] ++ List.replicate 8 10 : List Nat).length =
      (List.replicate 16 10 : List Nat).length) ∧
    (([10, 10, 10, 10, 10, 10, 10, 11] ++ List.replicate 8 10 : List Nat).drop
        (8 * (([1] : List Nat).length + 1)) =
      (List.replicate 16 10 : List Nat).drop (8 * (([1] : List Nat).length + 1))) ∧
    ∀ i, (([10, 10, 10, 10, 10, 10, 10, 11] ++ List.replicate 8 10 :
      List Nat).getD i 0 / 2) = (List.replicate 16 10 : List Nat).getD i 0 / 2 :=
  C3_minimal_disturbance (List.replicate 16 10) [1]
    ([10, 10, 10, 10, 10, 10, 10, 11] ++ List.replicate 8 10)
    (by decide) (by decide) (by decide)

/-- C4: whenever the consecutive complete 8-bit groups of the LSB stream
contain an all-zero group, the decoder returns exactly the groups strictly
before the first all-zero group, each decoded MSB-first to one character
whose code point is the group's value, and every returned code point lies in
`[0,255]`. -/
theorem C4_terminator_scan (P : List Nat)
    (hterm : List.replicate 8 0 ∈ chunks8 (lsbStream P)) :
    decode_text_from_image P =
      ((chunks8 (lsbStream P)).takeWhile
        (fun c => c ≠ List.replicate 8 0)).map bitsToNat ∧
    ∀ c ∈ decode_text_from_image P, c < 256 :=
  ⟨decodeBits_chunks_of_mem hterm, decodeBits_lt (lsbStream_bits_lt P)⟩

/-- Witness for C4: a 10-element buffer whose first 8 LSBs are the
terminator. -/
theorem C4_terminator_scan_witness :
    decode_text_from_image [2, 2, 2, 2, 2, 2, 2, 2, 1, 3] =
      ((chunks8 (lsbStream [2, 2, 2, 2, 2, 2, 2, 2, 1, 3])).takeWhile
        (fun c => c ≠ List.replicate 8 0)).map bitsToNat ∧
    ∀ c ∈ decode_text_from_image [2, 2, 2, 2, 2, 2, 2, 2, 1, 3], c < 256 :=
  C4_terminator_scan [2, 2, 2, 2, 2, 2, 2, 2, 1, 3] (by decide)

/-- C5, as stated, is false: on the 9-element buffer of 1s the LSB stream is
nine 1-bits, no 8-bit group is zero, and the complete groups decode to
`[255]`; but the decoder returns `[255, 1]` — the trailing single bit is not
discarded, it is decoded as the extra character `chr(1)`. -/
theorem C5_counterexample :
    List.replicate 8 0 ∉ chunks8 (lsbStream (List.replicate 9 1)) ∧
    decode_text_from_image (List.replicate 9 1) = [255, 1] ∧
    (chunks8 (lsbStream (List.replicate 9 1))).map bitsToNat = [255] := by decide

/-- C5 (amended): for every pixel buffer whose LSBs never form an all-zero
complete 8-bit group, the decoder returns (without error) the string decoded
from all the 8-bit groups including the trailing group of fewer than 8 bits,
which is not discarded: it contributes one character whose code point is the
value of its bits. -/
theorem C5_no_terminator (P : List Nat)
    (h : List.replicate 8 0 ∉ chunks8 (lsbStream P)) :
    decode_text_from_image P = (allChunks (lsbStream P)).map bitsToNat :=
  decodeBits_no_zero h

/-- Witness for C5 (amended) on the 9-element buffer of 1s. -/
theorem C5_no_terminator_witness :
    decode_text_from_image (List.replicate 9 3) =
      (allChunks (lsbStream (List.replicate 9 3))).map bitsToNat :=
  C5_no_terminator (List.replicate 9 3) (by decide)

/-- C6: encoding the empty secret into a buffer of length ≥ 8 (elements in
`[0,255]`) succeeds, clears the LSB of exactly the first 8 elements (each
becomes `2*(p/2)`), leaves every element from index 8 on untouched, and the
result decodes to the empty string. -/
theorem C6_empty_secret (P : List Nat) (hP : ∀ p ∈ P, p < 256)
    (h8 : 8 ≤ P.length) :
    ∃ Q, encode_text_in_image P [] = .ok Q ∧
      Q.length = P.length ∧
      (∀ i < 8, Q.getD i 0 = 2 * (P.getD i 0 / 2)) ∧
      Q.drop 8 = P.drop 8 ∧
      decode_text_from_image Q = [] := by
  have hS : ∀ c ∈ ([] : List Nat), c < 256 := by simp
  have hcap : 8 * (([] : List Nat).length + 1) ≤ P.length := by simpa using h8
  refine ⟨embedBits P (binary_secret []), encode_ok hS hcap,
    embedBits_length _ _, ?_, ?_, ?_⟩
  · intro i hi
    have hb := binary_secret_bits_lt (S := []) hS
    have hiP : i < P.length := by omega
    rw [embedBits_getD_eq P _ hP hb i
      (by rw [binary_secret_nil]; simpa using hi) hiP]
    rw [show (binary_secret []).getD i 0 = 0 from by
      rw [binary_secret_nil]; exact getD_replicate_zero 8 i]
    rw [embedByte_eq (hP _ (getD_mem hiP)) (by omega)]
    omega
  · have h := embedBits_drop P (binary_secret [])
    simp only [binary_secret_nil, List.length_replicate] at h
    exact h
  · rw [roundtrip_core hP hS hcap]
    rfl

/-- Witness for C6 on eight 9s. -/
theorem C6_empty_secret_witness :
    ∃ Q, encode_text_in_image (List.replicate 8 9) [] = .ok Q ∧
      Q.length = (List.replicate 8 9 : List Nat).length ∧
      (∀ i < 8, Q.getD i 0 = 2 * ((List.replicate 8 9 : List Nat).getD i 0 / 2)) ∧
      Q.drop 8 = (List.replicate 8 9 : List Nat).drop 8 ∧
      decode_text_from_image Q = [] :=
  C6_empty_secret (List.replicate 8 9) (by decide) (by decide)

/-- C7: decoding the empty pixel buffer returns the empty string (it is a
successful result of the total decoding function, not an error). -/
theorem C7_empty_carrier : decode_text_from_image [] = [] := rfl

/-- C8: the concrete scenario — encoding `"Hi"` into 32 bytes of `0xFF`
succeeds (24 required bits ≤ 32), the first 24 LSBs of the output are the
bits of `'H'` (0x48), `'i'` (0x69) and the terminator, elements 24–31 stay
`0xFF`, and the output decodes back to `"Hi"`. -/
theorem C8_concrete_scenario :
    8 * (([72, 105] : List Nat).length + 1) ≤
      (List.replicate 32 255 : List Nat).length ∧
    encode_text_in_image (List.replicate 32 255) [72, 105] =
      .ok ([254, 255, 254, 254, 255, 254, 254, 254,
            254, 255, 255, 254, 255, 254, 254, 255]
        ++ List.replicate 8 254 ++ List.replicate 8 255) ∧
    (lsbStream ([254, 255, 254, 254, 255, 254, 254, 254,
            254, 255, 255, 254, 255, 254, 254, 255]
        ++ List.replicate 8 254 ++ List.replicate 8 255)).take 24 =
      [0, 1, 0, 0, 1, 0, 0, 0, 0, 1, 1, 0, 1, 0, 0, 1] ++ List.replicate 8 0 ∧
    (([254, 255, 254, 254, 255, 254, 254, 254,
            254, 255, 255, 254, 255, 254, 254, 255]
        ++ List.replicate 8 254 ++ List.replicate 8 255 : List Nat)).drop 24 =
      List.replicate 8 255 ∧
    decode_text_from_image ([254, 255, 254, 254, 255, 254, 254, 254,
            254, 255, 255, 254, 255, 254, 254, 255]
        ++ List.replicate 8 254 ++ List.replicate 8 255) = [72, 105] := by decide

/-- C9: the decoder is a total function — on every buffer with elements in
`[0,255]` it terminates and returns a string whose code points all lie in
`[0,255]` (so `chr` never fails and the `except` branch is unreachable). -/
theorem C9_decoder_total (P : List Nat) (_hP : ∀ p ∈ P, p < 256) :
    ∀ c ∈ decode_text_from_image P, c < 256 :=
  decodeBits_lt (lsbStream_bits_lt P)

/-- Witness for C9 on a small mixed buffer: its first decoded character is a
valid single-byte code point. -/
theorem C9_decoder_total_witness :
    (decode_text_from_image [0, 1, 2, 255, 254, 7, 8, 9, 10]).getD 0 0 < 256 :=
  C9_decoder_total [0, 1, 2, 255, 254, 7, 8, 9, 10] (by decide)
    ((decode_text_from_image [0, 1, 2, 255, 254, 7, 8, 9, 10]).getD 0 0) (by decide)

/-- C10: for every in-capacity pixel buffer and secret with code points in
`[0,255]` that contains a NUL character, decoding the encoded buffer returns
the longest prefix of the secret strictly before the first NUL (its
`takeWhile (· ≠ 0)`), which is not the secret itself. -/
theorem C10_nul_truncation (P S : List Nat) (hP : ∀ p ∈ P, p < 256)
    (hS : ∀ c ∈ S, c < 256) (hnul : 0 ∈ S)
    (hcap : 8 * (S.length + 1) ≤ P.length) :
    ∃ Q, encode_text_in_image P S = .ok Q ∧
      decode_text_from_image Q = S.takeWhile (fun c => c ≠ 0) ∧
      decode_text_from_image Q ≠ S := by
  refine ⟨embedBits P (binary_secret S), encode_ok hS hcap,
    roundtrip_core hP hS hcap, ?_⟩
  rw [roundtrip_core hP hS hcap]
  exact takeWhile_ne_self_of_mem_zero hnul

/-- Witness for C10: the secret `"A\x00"` in a 24-element buffer decodes to
`"A"`. -/
theorem C10_nul_truncation_witness :
    ∃ Q, encode_text_in_image (List.replicate 24 6) [65, 0] = .ok Q ∧
      decode_text_from_image Q = ([65, 0] : List Nat).takeWhile (fun c => c ≠ 0) ∧
      decode_text_from_image Q ≠ [65, 0] :=
  C10_nul_truncation (List.replicate 24 6) [65, 0] (by decide) (by decide)
    (by decide) (by decide)

end Steg
